import Mathlib

/-!
Verification of the diff engine of `shared/run_diff.go` (wpt.fyi):
`GetResultsDiff` and its helper `anyPathMatches`.

Embedding choices:
* Go `map[string][]int` is modelled as an association list
  `List (String × List Int)` with unique keys; map read is `mapGet?`
  (first match) and map write is `mapSet` (replace or append), which
  agree with Go map semantics on unique-key lists.
* Go `int` is modelled as `Int` (the counts involved are far below the
  64-bit overflow boundary, so wrap-around is immaterial to the claims).
* `mapset.Set` of path strings is `Option (List String)`, `none`
  standing for the nil set.
* A nil `renames` map is the empty list (both make every lookup miss
  and the target-scan find nothing).
* Out-of-bounds slice indexing (a Go panic) is modelled by a separate
  checked variant returning `Option`; the total variant reads with
  default `0`.  The two are proved to agree on structurally valid
  inputs (every value array of length at least 2).
-/

/-- The four category flags of `shared.DiffFilterParam` (fields as used by
`run_diff.go`: `Added`, `Deleted`, `Changed`, `Unchanged`). -/
structure DiffFilterParam where
  Added : Bool
  Deleted : Bool
  Changed : Bool
  Unchanged : Bool

/-- A Go `map[string][]int` as an association list. -/
abbrev ResultsMap := List (String × List Int)

/-- Go map read `m[k]`: the value at the first matching key, if any. -/
def mapGet? {α : Type} (m : List (String × α)) (k : String) : Option α :=
  match m with
  | [] => none
  | (k', v) :: rest => if k' = k then some v else mapGet? rest k

/-- Go map write `m[k] = v`: replace the binding of `k`, or append it. -/
def mapSet {α : Type} (m : List (String × α)) (k : String) (v : α) :
    List (String × α) :=
  match m with
  | [] => [(k, v)]
  | (k', v') :: rest =>
    if k' = k then (k, v) :: rest else (k', v') :: mapSet rest k v

/-- Go slice read `l[i]` with default `0` (used by the total variant). -/
def getI (l : List Int) (i : Nat) : Int :=
  l.getD i 0

/-- The rename substitution at the top of the before-pass loop body:
`if renames != nil { rename, ok := renames[test]; if ok { test = rename } }`. -/
def resolveRename (renames : List (String × String)) (test : String) : String :=
  match mapGet? renames test with
  | some rename => rename
  | none => test

/-- `anyPathMatches(paths, testPath)`: true when `paths` is nil, otherwise
true iff some element of the set satisfies `strings.Index(testPath, path) == 0`,
i.e. is a literal prefix of `testPath` (checked on the character data, the
counterpart of Go's byte-wise comparison on UTF-8 strings). -/
def anyPathMatches (paths : Option (List String)) (testPath : String) : Bool :=
  match paths with
  | none => true
  | some ps => ps.any (fun path => path.data.isPrefixOf testPath.data)

/-- Output key of one before-pass iteration: the possibly renamed test id. -/
def beforeKey (renames : List (String × String)) (e : String × List Int) :
    String :=
  resolveRename renames e.1

/-- The body of the before-pass loop of `GetResultsDiff`, as the optional
entry it writes for one `(test, resultsBefore)` pair (`none` = `continue`). -/
def beforeEmit (after : ResultsMap) (filter : DiffFilterParam)
    (paths : Option (List String)) (renames : List (String × String))
    (e : String × List Int) : Option (List Int) :=
  let test := resolveRename renames e.1
  let resultsBefore := e.2
  if !(anyPathMatches paths test) then none
  else
    match mapGet? after test with
    | none =>
      if !filter.Deleted then none
      else some [0, 0, -(getI resultsBefore 1)]
    | some resultsAfter =>
      if !filter.Changed && !filter.Unchanged then none
      else
        let delta := getI resultsBefore 0 - getI resultsAfter 0
        let changed : Bool :=
          delta != 0 || getI resultsBefore 1 != getI resultsAfter 1
        if (!changed && !filter.Unchanged) || (changed && !filter.Changed) then
          none
        else
          let improved :=
            if getI resultsAfter 0 - getI resultsBefore 0 > 0 then
              getI resultsAfter 0 - getI resultsBefore 0
            else 0
          let failingBefore := getI resultsBefore 1 - getI resultsBefore 0
          let failingAfter := getI resultsAfter 1 - getI resultsAfter 0
          let regressed :=
            if failingAfter - failingBefore > 0 then
              failingAfter - failingBefore
            else 0
          some [improved, regressed, getI resultsAfter 1 - getI resultsBefore 1]

/-- The body of the after-pass loop of `GetResultsDiff`, as the optional
entry it writes for one `(test, resultsAfter)` pair (`none` = `continue` or
no write). -/
def afterEmit (before : ResultsMap) (paths : Option (List String))
    (renames : List (String × String)) (e : String × List Int) :
    Option (List Int) :=
  if renames.any (fun r => decide (r.2 = e.1)) then none
  else if !(anyPathMatches paths e.1) then none
  else
    match mapGet? before e.1 with
    | some _ => none
    | none => some [getI e.2 0, getI e.2 1 - getI e.2 0, getI e.2 1]

/-- One loop iteration: perform the write described by `emit`, if any. -/
def applyEmit {α : Type} (key : α → String) (emit : α → Option (List Int))
    (diff : ResultsMap) (e : α) : ResultsMap :=
  match emit e with
  | none => diff
  | some v => mapSet diff (key e) v

/-- `GetResultsDiff(before, after, filter, paths, renames)` from
`shared/run_diff.go`: the before pass (gated by `Deleted || Changed`)
followed by the after pass (gated by `Added`). -/
def GetResultsDiff (before after : ResultsMap) (filter : DiffFilterParam)
    (paths : Option (List String)) (renames : List (String × String)) :
    ResultsMap :=
  let diff : ResultsMap := []
  let diff :=
    if filter.Deleted || filter.Changed then
      before.foldl
        (applyEmit (beforeKey renames) (beforeEmit after filter paths renames))
        diff
    else diff
  if filter.Added then
    after.foldl (applyEmit Prod.fst (afterEmit before paths renames)) diff
  else diff


/-! ### Association-list map lemmas -/

theorem mapGet?_mapSet_self {α : Type} (m : List (String × α)) (k : String)
    (v : α) : mapGet? (mapSet m k v) k = some v := by
  induction m with
  | nil => simp [mapGet?, mapSet]
  | cons hd tl ih =>
    obtain ⟨k', v'⟩ := hd
    by_cases h : k' = k
    · simp [mapGet?, mapSet, h]
    · simp [mapGet?, mapSet, h, ih]

theorem mapGet?_mapSet_ne {α : Type} (m : List (String × α)) (k k' : String)
    (v : α) (h : k' ≠ k) : mapGet? (mapSet m k v) k' = mapGet? m k' := by
  have hkk : ¬ k = k' := fun h' => h h'.symm
  induction m with
  | nil => simp [mapGet?, mapSet, hkk]
  | cons hd tl ih =>
    obtain ⟨k'', v''⟩ := hd
    by_cases hk : k'' = k
    · subst hk
      simp [mapGet?, mapSet, hkk]
    · by_cases hk' : k'' = k'
      · simp [mapGet?, mapSet, hk, hk', h]
      · simp [mapGet?, mapSet, hk, hk', ih]

theorem mapGet?_isSome_of_mem {α : Type} {m : List (String × α)} {k : String}
    {v : α} (h : (k, v) ∈ m) : ∃ w, mapGet? m k = some w := by
  induction m with
  | nil => simp at h
  | cons hd tl ih =>
    obtain ⟨k', v'⟩ := hd
    rcases List.mem_cons.mp h with h' | h'
    · injection h' with h1 h2
      subst h1
      exact ⟨v', by simp [mapGet?]⟩
    · by_cases hk : k' = k
      · exact ⟨v', by simp [mapGet?, hk]⟩
      · obtain ⟨w, hw⟩ := ih h'
        exact ⟨w, by simp [mapGet?, hk, hw]⟩

theorem mem_of_mapGet?_eq_some {α : Type} {m : List (String × α)} {k : String}
    {v : α} (h : mapGet? m k = some v) : (k, v) ∈ m := by
  induction m with
  | nil => simp [mapGet?] at h
  | cons hd tl ih =>
    obtain ⟨k', v'⟩ := hd
    by_cases hk : k' = k
    · subst hk
      simp [mapGet?] at h
      simp [h]
    · simp [mapGet?, hk] at h
      exact List.mem_cons_of_mem _ (ih h)

theorem mapGet?_eq_some_of_mem_nodup {α : Type} {m : List (String × α)}
    {k : String} {v : α} (hnd : (m.map Prod.fst).Nodup) (h : (k, v) ∈ m) :
    mapGet? m k = some v := by
  induction m with
  | nil => simp at h
  | cons hd tl ih =>
    obtain ⟨k', v'⟩ := hd
    simp only [List.map_cons, List.nodup_cons] at hnd
    rcases List.mem_cons.mp h with h' | h'
    · injection h' with h1 h2
      subst h1
      subst h2
      simp [mapGet?]
    · have hk : k' ≠ k := by
        intro hk
        subst hk
        exact hnd.1 (List.mem_map.mpr ⟨(k', v), h', rfl⟩)
      simp only [mapGet?, if_neg hk]
      exact ih hnd.2 h'

theorem mem_mapSet {α : Type} {m : List (String × α)} {k : String} {v : α}
    {x : String × α} (h : x ∈ mapSet m k v) : x ∈ m ∨ x = (k, v) := by
  induction m with
  | nil =>
    simp [mapSet] at h
    simp [h]
  | cons hd tl ih =>
    obtain ⟨k', v'⟩ := hd
    by_cases hk : k' = k
    · simp [mapSet, hk] at h
      rcases h with h | h
      · right; simp [h]
      · left; exact List.mem_cons_of_mem _ h
    · simp only [mapSet, if_neg hk, List.mem_cons] at h
      rcases h with h | h
      · left; simp [h]
      · rcases ih h with h' | h'
        · left; exact List.mem_cons_of_mem _ h'
        · right; exact h'

/-! ### Fold lemmas for the two passes -/

theorem foldl_applyEmit_not_written {α : Type} (key : α → String)
    (emit : α → Option (List Int)) (l : List α) (init : ResultsMap)
    (k : String) (h : ∀ e ∈ l, key e ≠ k ∨ emit e = none) :
    mapGet? (l.foldl (applyEmit key emit) init) k = mapGet? init k := by
  induction l generalizing init with
  | nil => rfl
  | cons hd tl ih =>
    rw [List.foldl_cons]
    rw [ih _ (fun e he => h e (List.mem_cons_of_mem _ he))]
    rcases h hd (List.mem_cons_self _ _) with hne | hnone
    · unfold applyEmit
      cases hemit : emit hd with
      | none => rfl
      | some v => exact mapGet?_mapSet_ne _ _ _ _ (Ne.symm hne)
    · unfold applyEmit
      rw [hnone]

theorem foldl_applyEmit_write {α : Type} (key : α → String)
    (emit : α → Option (List Int)) (l1 l2 : List α) (e : α)
    (init : ResultsMap)
    (h : ∀ e' ∈ l1 ++ l2, key e' ≠ key e) :
    mapGet? ((l1 ++ e :: l2).foldl (applyEmit key emit) init) (key e) =
      match emit e with
      | some v => some v
      | none => mapGet? init (key e) := by
  rw [List.foldl_append, List.foldl_cons]
  rw [foldl_applyEmit_not_written key emit l2 _ (key e)
    (fun e' he => Or.inl (h e' (List.mem_append_right _ he)))]
  unfold applyEmit
  cases hemit : emit e with
  | none =>
    exact foldl_applyEmit_not_written key emit l1 init (key e)
      (fun e' he => Or.inl (h e' (List.mem_append_left _ he)))
  | some v => exact mapGet?_mapSet_self _ _ _

theorem exists_split_of_nodup_map {α : Type} {l : List α} {f : α → String}
    (hnd : (l.map f).Nodup) {e : α} (he : e ∈ l) :
    ∃ l1 l2, l = l1 ++ e :: l2 ∧ ∀ e' ∈ l1 ++ l2, f e' ≠ f e := by
  obtain ⟨l1, l2, rfl⟩ := List.append_of_mem he
  refine ⟨l1, l2, rfl, ?_⟩
  intro e' he' hf
  rw [List.map_append, List.map_cons] at hnd
  rcases List.mem_append.mp he' with h' | h'
  · exact (List.disjoint_of_nodup_append hnd)
      (hf ▸ List.mem_map.mpr ⟨e', h', rfl⟩) (List.mem_cons_self _ _)
  · have hr := hnd.of_append_right
    rw [List.nodup_cons] at hr
    exact hr.1 (hf ▸ List.mem_map.mpr ⟨e', h', rfl⟩)

@[simp] theorem getI_cons_zero (a : Int) (l : List Int) : getI (a :: l) 0 = a :=
  rfl

@[simp] theorem getI_cons_one (a b : Int) (l : List Int) :
    getI (a :: b :: l) 1 = b :=
  rfl

theorem ite_pos_eq_max (x : Int) : (if 0 < x then x else 0) = max 0 x := by
  rcases lt_or_le 0 x with h | h
  · rw [if_pos h, max_eq_right h.le]
  · rw [if_neg (not_lt.mpr h), max_eq_left h]

theorem foldl_applyEmit_all_none {α : Type} (key : α → String)
    (emit : α → Option (List Int)) (l : List α) (init : ResultsMap)
    (h : ∀ e ∈ l, emit e = none) :
    l.foldl (applyEmit key emit) init = init := by
  induction l generalizing init with
  | nil => rfl
  | cons hd tl ih =>
    rw [List.foldl_cons]
    have hstep : applyEmit key emit init hd = init := by
      unfold applyEmit
      rw [h hd (List.mem_cons_self _ _)]
    rw [hstep]
    exact ih _ (fun e he => h e (List.mem_cons_of_mem _ he))

theorem foldl_applyEmit_key_prop {α : Type} (P : String → Prop)
    (key : α → String) (emit : α → Option (List Int)) (l : List α)
    (init : ResultsMap) (hinit : ∀ x ∈ init, P x.1)
    (hl : ∀ e ∈ l, emit e ≠ none → P (key e)) :
    ∀ x ∈ l.foldl (applyEmit key emit) init, P x.1 := by
  induction l generalizing init with
  | nil => exact hinit
  | cons hd tl ih =>
    rw [List.foldl_cons]
    refine ih _ ?_ (fun e he => hl e (List.mem_cons_of_mem _ he))
    intro x hx
    unfold applyEmit at hx
    cases hemit : emit hd with
    | none =>
      rw [hemit] at hx
      exact hinit x hx
    | some v =>
      rw [hemit] at hx
      rcases mem_mapSet hx with h | h
      · exact hinit x h
      · rw [h]
        exact hl hd (List.mem_cons_self _ _) (by simp [hemit])

/-- A key produced by the before pass (the resolved id of a before entry) is
never written by the after pass: either it is a rename target, or it is a key
of `before`. -/
theorem afterEmit_none_of_before_entry (before : ResultsMap)
    (paths : Option (List String)) (renames : List (String × String))
    {test : String} {rb : List Int} (hmem : (test, rb) ∈ before) :
    ∀ e : String × List Int, e.1 = resolveRename renames test →
      afterEmit before paths renames e = none := by
  intro e he
  unfold resolveRename at he
  cases hr : mapGet? renames test with
  | some r =>
    rw [hr] at he
    have hmemr : (test, r) ∈ renames := mem_of_mapGet?_eq_some hr
    have hany : (renames.any fun x => decide (x.2 = e.1)) = true :=
      List.any_eq_true.mpr ⟨(test, r), hmemr, by simp [he]⟩
    simp [afterEmit, hany]
  | none =>
    rw [hr] at he
    obtain ⟨w, hw⟩ := mapGet?_isSome_of_mem hmem
    simp [afterEmit, he, hw]

theorem after_no_write_at_resolved (before : ResultsMap)
    (paths : Option (List String)) (renames : List (String × String))
    {test : String} {rb : List Int} (hmem : (test, rb) ∈ before)
    (after : ResultsMap) :
    ∀ e ∈ after, e.1 ≠ resolveRename renames test ∨
      afterEmit before paths renames e = none := by
  intro e _
  by_cases h : e.1 = resolveRename renames test
  · exact Or.inr (afterEmit_none_of_before_entry before paths renames hmem e h)
  · exact Or.inl h

/-- The diff has no entry at key `k` when neither pass writes `k`. -/
theorem mapGet?_GetResultsDiff_eq_none (before after : ResultsMap)
    (filter : DiffFilterParam) (paths : Option (List String))
    (renames : List (String × String)) (k : String)
    (hb : ∀ e ∈ before, beforeKey renames e ≠ k ∨
      beforeEmit after filter paths renames e = none)
    (ha : filter.Added = true → ∀ e ∈ after, e.1 ≠ k ∨
      afterEmit before paths renames e = none) :
    mapGet? (GetResultsDiff before after filter paths renames) k = none := by
  simp only [GetResultsDiff]
  split
  · rename_i hadd
    rw [foldl_applyEmit_not_written _ _ _ _ _ (ha hadd)]
    split
    · rw [foldl_applyEmit_not_written _ _ _ _ _ hb]
      rfl
    · rfl
  · split
    · rw [foldl_applyEmit_not_written _ _ _ _ _ hb]
      rfl
    · rfl

/-- The entry written by the before pass for a given before-set element is the
value of that element's `beforeEmit`, provided resolved keys are distinct and
the after pass does not touch the key. -/
theorem mapGet?_GetResultsDiff_beforeWrite (before after : ResultsMap)
    (filter : DiffFilterParam) (paths : Option (List String))
    (renames : List (String × String)) {e : String × List Int} {v : List Int}
    (hmem : e ∈ before)
    (hnd : (before.map (beforeKey renames)).Nodup)
    (hgate : filter.Deleted = true ∨ filter.Changed = true)
    (hemit : beforeEmit after filter paths renames e = some v)
    (ha : filter.Added = true → ∀ e' ∈ after, e'.1 ≠ beforeKey renames e ∨
      afterEmit before paths renames e' = none) :
    mapGet? (GetResultsDiff before after filter paths renames)
      (beforeKey renames e) = some v := by
  obtain ⟨l1, l2, hsplit, hothers⟩ := exists_split_of_nodup_map hnd hmem
  have hgb : (filter.Deleted || filter.Changed) = true := by
    rcases hgate with h | h <;> simp [h]
  simp only [GetResultsDiff, hgb, if_true]
  split
  · rename_i hadd
    rw [foldl_applyEmit_not_written _ _ _ _ _ (ha hadd)]
    rw [hsplit, foldl_applyEmit_write _ _ _ _ _ _ hothers, hemit]
  · rw [hsplit, foldl_applyEmit_write _ _ _ _ _ _ hothers, hemit]

/-- The entry written by the after pass for a given after-set element is the
value of that element's `afterEmit`, provided after keys are distinct. -/
theorem mapGet?_GetResultsDiff_afterWrite (before after : ResultsMap)
    (filter : DiffFilterParam) (paths : Option (List String))
    (renames : List (String × String)) {e : String × List Int} {v : List Int}
    (hmem : e ∈ after)
    (hnd : (after.map Prod.fst).Nodup)
    (hadded : filter.Added = true)
    (hemit : afterEmit before paths renames e = some v) :
    mapGet? (GetResultsDiff before after filter paths renames) e.1 = some v := by
  obtain ⟨l1, l2, hsplit, hothers⟩ := exists_split_of_nodup_map hnd hmem
  simp only [GetResultsDiff, hadded, if_true]
  rw [hsplit, foldl_applyEmit_write Prod.fst _ l1 l2 e _ hothers, hemit]

/-! ### Claim theorems -/

/-- C6: `anyPathMatches` returns true unconditionally for the nil scope, and
otherwise returns true iff at least one string of the scope is a literal
prefix of the test path; it is a pure total function. -/
theorem spec_C6_anyPathMatches :
    ∀ testPath : String,
      anyPathMatches none testPath = true ∧
      ∀ ps : List String,
        (anyPathMatches (some ps) testPath = true ↔
          ∃ p ∈ ps, p.data <+: testPath.data) := by
  intro testPath
  refine ⟨rfl, ?_⟩
  intro ps
  simp [anyPathMatches, List.any_eq_true, List.isPrefixOf_iff_prefix]

/-- C1: when neither `Deleted` nor `Changed` is set the before pass is
skipped entirely (the result is exactly the Added pass run on the empty
accumulator); in particular with filter = {Unchanged: true} and all other
flags false the result is empty — the same as if `before` were empty. -/
theorem spec_C1_before_pass_gated (before after : ResultsMap)
    (paths : Option (List String)) (renames : List (String × String)) :
    (∀ filter : DiffFilterParam,
      filter.Deleted = false → filter.Changed = false →
      GetResultsDiff before after filter paths renames =
        (if filter.Added then
          after.foldl (applyEmit Prod.fst (afterEmit before paths renames)) []
        else [])) ∧
    GetResultsDiff before after ⟨false, false, false, true⟩ paths renames
      = [] ∧
    GetResultsDiff before after ⟨false, false, false, true⟩ paths renames =
      GetResultsDiff [] after ⟨false, false, false, true⟩ paths renames := by
  refine ⟨?_, ?_, ?_⟩
  · intro filter hd hc
    simp [GetResultsDiff, hd, hc]
  · simp [GetResultsDiff]
  · simp [GetResultsDiff]

/-- Witness for C1 at a concrete input. -/
theorem spec_C1_witness :
    GetResultsDiff [("a", [1, 2])] [("b", [3, 4])]
        ⟨true, false, false, false⟩ none [] =
      (if (⟨true, false, false, false⟩ : DiffFilterParam).Added then
        List.foldl (applyEmit Prod.fst (afterEmit [("a", [1, 2])] none []))
          [] [("b", [3, 4])]
      else []) :=
  (spec_C1_before_pass_gated [("a", [1, 2])] [("b", [3, 4])] none []).1
    ⟨true, false, false, false⟩ rfl rfl

/-- C3: a before entry whose resolved id is absent from `after` (path matcher
satisfied) is skipped when `Deleted` is false, and produces exactly
`[0, 0, -before.total]` under its resolved id when `Deleted` is true. -/
theorem spec_C3_deleted (before after : ResultsMap)
    (filter : DiffFilterParam) (paths : Option (List String))
    (renames : List (String × String)) (test : String) (bp bt : Int)
    (hnd : (before.map (beforeKey renames)).Nodup)
    (hmem : (test, [bp, bt]) ∈ before)
    (habs : mapGet? after (resolveRename renames test) = none)
    (hpath : anyPathMatches paths (resolveRename renames test) = true) :
    (filter.Deleted = false →
      mapGet? (GetResultsDiff before after filter paths renames)
        (resolveRename renames test) = none) ∧
    (filter.Deleted = true →
      mapGet? (GetResultsDiff before after filter paths renames)
        (resolveRename renames test) = some [0, 0, -bt]) := by
  have hkey : beforeKey renames (test, [bp, bt]) = resolveRename renames test :=
    rfl
  obtain ⟨l1, l2, hsplit, hothers⟩ := exists_split_of_nodup_map hnd hmem
  constructor
  · intro hdel
    have hemit : beforeEmit after filter paths renames (test, [bp, bt]) =
        none := by
      simp [beforeEmit, hpath, habs, hdel]
    refine mapGet?_GetResultsDiff_eq_none _ _ _ _ _ _ ?_ ?_
    · intro e he
      rw [hsplit] at he
      rcases List.mem_append.mp he with h | h
      · exact Or.inl (hkey ▸ hothers e (List.mem_append_left _ h))
      · rcases List.mem_cons.mp h with h | h
        · rw [h]
          exact Or.inr hemit
        · exact Or.inl (hkey ▸ hothers e (List.mem_append_right _ h))
    · intro _
      exact after_no_write_at_resolved before paths renames hmem after
  · intro hdel
    have hemit : beforeEmit after filter paths renames (test, [bp, bt]) =
        some [0, 0, -bt] := by
      simp [beforeEmit, hpath, habs, hdel]
    have hres := mapGet?_GetResultsDiff_beforeWrite before after filter paths
      renames hmem hnd (Or.inl hdel) hemit
      (fun _ => hkey ▸ after_no_write_at_resolved before paths renames hmem after)
    rw [hkey] at hres
    exact hres

/-- Witness for C3: the spec's deleted-only scenario. -/
theorem spec_C3_witness :
    mapGet? (GetResultsDiff [("a.html", [5, 10])] []
        ⟨false, true, false, false⟩ none []) "a.html" = some [0, 0, -10] :=
  (spec_C3_deleted [("a.html", [5, 10])] [] ⟨false, true, false, false⟩
      none [] "a.html" 5 10 (by simp) (by simp) rfl rfl).2 rfl

theorem ite_lt_eq_sup (x y : Int) : (if y < x then x - y else 0) = 0 ⊔ (x - y) := by
  rcases lt_or_le y x with h | h
  · rw [if_pos h]
    exact (sup_eq_right.mpr (by omega)).symm
  · rw [if_neg (not_lt.mpr h)]
    exact (sup_eq_left.mpr (by omega)).symm

/-- C2: for a test present (under its resolved id) in both sets, with the
before-pass gate and path matcher satisfied, an entry is emitted iff
(changed and Changed) or (unchanged and Unchanged), where changed means the
pass counts or totals differ; the entry is exactly
`[max 0 (ap - bp), max 0 ((aq - ap) - (bt - bp)), aq - bt]`. -/
theorem spec_C2_changed_unchanged (before after : ResultsMap)
    (filter : DiffFilterParam) (paths : Option (List String))
    (renames : List (String × String)) (test : String) (bp bt ap aq : Int)
    (hnd : (before.map (beforeKey renames)).Nodup)
    (hmem : (test, [bp, bt]) ∈ before)
    (hafter : mapGet? after (resolveRename renames test) = some [ap, aq])
    (hpath : anyPathMatches paths (resolveRename renames test) = true)
    (hgate : filter.Deleted = true ∨ filter.Changed = true) :
    ((((bp ≠ ap ∨ bt ≠ aq) ∧ filter.Changed = true) ∨
      ((bp = ap ∧ bt = aq) ∧ filter.Unchanged = true)) →
      mapGet? (GetResultsDiff before after filter paths renames)
        (resolveRename renames test) =
        some [max 0 (ap - bp), max 0 ((aq - ap) - (bt - bp)), aq - bt]) ∧
    ((¬ (((bp ≠ ap ∨ bt ≠ aq) ∧ filter.Changed = true) ∨
      ((bp = ap ∧ bt = aq) ∧ filter.Unchanged = true))) →
      mapGet? (GetResultsDiff before after filter paths renames)
        (resolveRename renames test) = none) := by
  have hkey : beforeKey renames (test, [bp, bt]) = resolveRename renames test :=
    rfl
  obtain ⟨l1, l2, hsplit, hothers⟩ := exists_split_of_nodup_map hnd hmem
  constructor
  · intro hc
    have hemit : beforeEmit after filter paths renames (test, [bp, bt]) =
        some [max 0 (ap - bp), max 0 ((aq - ap) - (bt - bp)), aq - bt] := by
      rcases hc with ⟨hne, hC⟩ | ⟨⟨h1, h2⟩, hU⟩
      · have hchanged : ((bp - ap != 0) || (bt != aq)) = true := by
          rcases hne with h | h
          · simp [bne_iff_ne, sub_ne_zero, h]
          · simp [bne_iff_ne, h]
        simp [beforeEmit, hpath, hafter, hchanged, hC]
        exact ⟨ite_lt_eq_sup ap bp, ite_lt_eq_sup (aq - ap) (bt - bp)⟩
      · subst h1
        subst h2
        simp [beforeEmit, hpath, hafter, hU, ite_pos_eq_max]
    have hres := mapGet?_GetResultsDiff_beforeWrite before after filter paths
      renames hmem hnd hgate hemit
      (fun _ => hkey ▸ after_no_write_at_resolved before paths renames hmem after)
    rw [hkey] at hres
    exact hres
  · intro hc
    obtain ⟨hcA, hcB⟩ := not_or.mp hc
    have hemit : beforeEmit after filter paths renames (test, [bp, bt]) =
        none := by
      by_cases hch : bp = ap ∧ bt = aq
      · have hU : filter.Unchanged = false := by
          cases hUv : filter.Unchanged
          · rfl
          · exact absurd ⟨hch, hUv⟩ hcB
        obtain ⟨h1, h2⟩ := hch
        subst h1
        subst h2
        cases hCv : filter.Changed <;>
          simp [beforeEmit, hpath, hafter, hU, hCv]
      · have hne : bp ≠ ap ∨ bt ≠ aq := not_and_or.mp hch
        have hC : filter.Changed = false := by
          cases hCv : filter.Changed
          · rfl
          · exact absurd ⟨hne, hCv⟩ hcA
        have hchanged : ((bp - ap != 0) || (bt != aq)) = true := by
          rcases hne with h | h
          · simp [bne_iff_ne, sub_ne_zero, h]
          · simp [bne_iff_ne, h]
        cases hUv : filter.Unchanged <;>
          simp [beforeEmit, hpath, hafter, hchanged, hC, hUv]
    refine mapGet?_GetResultsDiff_eq_none _ _ _ _ _ _ ?_ ?_
    · intro e he
      rw [hsplit] at he
      rcases List.mem_append.mp he with h | h
      · exact Or.inl (hkey ▸ hothers e (List.mem_append_left _ h))
      · rcases List.mem_cons.mp h with h | h
        · rw [h]
          exact Or.inr hemit
        · exact Or.inl (hkey ▸ hothers e (List.mem_append_right _ h))
    · intro _
      exact after_no_write_at_resolved before paths renames hmem after

/-- Witness for C2: the spec's changed-only scenario. -/
theorem spec_C2_witness :
    mapGet? (GetResultsDiff [("a.html", [5, 10])] [("a.html", [7, 10])]
        ⟨false, false, true, false⟩ none []) "a.html" = some [2, 0, 0] := by
  have h := (spec_C2_changed_unchanged [("a.html", [5, 10])]
      [("a.html", [7, 10])] ⟨false, false, true, false⟩ none [] "a.html"
      5 10 7 10 (by simp) (by simp) rfl rfl (Or.inr rfl)).1
      (Or.inl ⟨Or.inl (by decide), rfl⟩)
  simpa using h

theorem resolveRename_some {renames : List (String × String)} {test r : String}
    (h : mapGet? renames test = some r) : resolveRename renames test = r := by
  simp [resolveRename, h]

theorem resolveRename_none {renames : List (String × String)} {test : String}
    (h : mapGet? renames test = none) : resolveRename renames test = test := by
  simp [resolveRename, h]

/-- C4: the after pass runs iff `Added`; an after entry that is no rename
target, passes the matcher and is absent from `before` yields exactly
`[pass, total - pass, total]`; an after entry whose id is a key of `before`
is never emitted by this pass. -/
theorem spec_C4_added (before after : ResultsMap) (filter : DiffFilterParam)
    (paths : Option (List String)) (renames : List (String × String))
    (test : String) (ap aq : Int)
    (hnd : (after.map Prod.fst).Nodup)
    (hmem : (test, [ap, aq]) ∈ after)
    (htgt : ∀ r ∈ renames, r.2 ≠ test)
    (hpath : anyPathMatches paths test = true)
    (habs : mapGet? before test = none) :
    (filter.Added = true →
      mapGet? (GetResultsDiff before after filter paths renames) test =
        some [ap, aq - ap, aq]) ∧
    (filter.Added = false →
      mapGet? (GetResultsDiff before after filter paths renames) test =
        none) ∧
    (∀ e : String × List Int, mapGet? before e.1 ≠ none →
      afterEmit before paths renames e = none) := by
  have hany : (renames.any fun r => decide (r.2 = test)) = false := by
    rw [List.any_eq_false]
    intro r hr
    simp [htgt r hr]
  have hemit : afterEmit before paths renames (test, [ap, aq]) =
      some [ap, aq - ap, aq] := by
    simp [afterEmit, hany, hpath, habs]
  have hb : ∀ e ∈ before, beforeKey renames e ≠ test := by
    intro e he hcontra
    cases hr : mapGet? renames e.1 with
    | some r =>
      have hk : beforeKey renames e = r := resolveRename_some hr
      rw [hk] at hcontra
      exact htgt (e.1, r) (mem_of_mapGet?_eq_some hr) hcontra
    | none =>
      have hk : beforeKey renames e = e.1 := resolveRename_none hr
      rw [hk] at hcontra
      obtain ⟨w, hw⟩ := mapGet?_isSome_of_mem
        (show (e.1, e.2) ∈ before by simpa using he)
      rw [hcontra] at hw
      rw [habs] at hw
      cases hw
  refine ⟨?_, ?_, ?_⟩
  · intro hadd
    exact mapGet?_GetResultsDiff_afterWrite before after filter paths renames
      hmem hnd hadd hemit
  · intro hadd
    refine mapGet?_GetResultsDiff_eq_none _ _ _ _ _ _
      (fun e he => Or.inl (hb e he)) ?_
    intro h
    rw [hadd] at h
    cases h
  · intro e hsome
    cases hw : mapGet? before e.1 with
    | none => exact absurd hw hsome
    | some w => simp [afterEmit, hw]

/-- Witness for C4: the spec's added-only scenario. -/
theorem spec_C4_witness :
    mapGet? (GetResultsDiff [] [("b.html", [3, 4])]
        ⟨true, false, false, false⟩ none []) "b.html" = some [3, 1, 4] := by
  have h := (spec_C4_added [] [("b.html", [3, 4])]
      ⟨true, false, false, false⟩ none [] "b.html" 3 4 (by simp) (by simp)
      (by simp) rfl rfl).1 rfl
  simpa using h

/-- C5: a rename substitutes the target id for the matcher check, the after
lookup and the output key; a rename target is skipped by the Added pass; in
the spec's rename scenario the result is exactly {"new.html": [0, 0, 0]}
with no double-count via the Added pass. -/
theorem spec_C5_renames :
    (∀ (after : ResultsMap) (filter : DiffFilterParam)
      (paths : Option (List String)) (renames : List (String × String))
      (diff : ResultsMap) (test newId : String) (rb : List Int),
      mapGet? renames test = some newId →
      applyEmit (beforeKey renames) (beforeEmit after filter paths renames)
          diff (test, rb) =
        applyEmit (beforeKey []) (beforeEmit after filter paths []) diff
          (newId, rb)) ∧
    (∀ (before : ResultsMap) (paths : Option (List String))
      (renames : List (String × String)) (diff : ResultsMap)
      (test : String) (ra : List Int),
      (∃ r ∈ renames, r.2 = test) →
      applyEmit Prod.fst (afterEmit before paths renames) diff (test, ra) =
        diff) ∧
    GetResultsDiff [("old.html", [5, 10])] [("new.html", [5, 10])]
        ⟨true, false, true, true⟩ none [("old.html", "new.html")] =
      [("new.html", [0, 0, 0])] := by
  refine ⟨?_, ?_, by decide⟩
  · intro after filter paths renames diff test newId rb hren
    have h1 : resolveRename renames test = newId := resolveRename_some hren
    have h2 : resolveRename [] newId = newId := rfl
    simp only [applyEmit, beforeEmit, beforeKey, h1, h2]
  · intro before paths renames diff test ra hex
    obtain ⟨r, hr, hrt⟩ := hex
    have hany : (renames.any fun x => decide (x.2 = (test, ra).1)) = true :=
      List.any_eq_true.mpr ⟨r, hr, by simp [hrt]⟩
    simp [applyEmit, afterEmit, hany]

/-- Witness for C5: the rename substitution applied at concrete input. -/
theorem spec_C5_witness :
    applyEmit (beforeKey [("old.html", "new.html")])
        (beforeEmit [] ⟨false, true, false, false⟩ none
          [("old.html", "new.html")])
        [] ("old.html", [5, 10]) =
      applyEmit (beforeKey []) (beforeEmit [] ⟨false, true, false, false⟩
          none []) [] ("new.html", [5, 10]) :=
  spec_C5_renames.1 [] ⟨false, true, false, false⟩ none
    [("old.html", "new.html")] [] "old.html" "new.html" [5, 10] rfl

/-- C7: every key of the diff result satisfies the path matcher against the
scope, whatever the filter flags; so with a non-nil scope no identifier
outside the scope ever appears in the result. -/
theorem spec_C7_scope (before after : ResultsMap) (filter : DiffFilterParam)
    (paths : Option (List String)) (renames : List (String × String)) :
    ∀ x ∈ GetResultsDiff before after filter paths renames,
      anyPathMatches paths x.1 = true := by
  have hbe : ∀ e, beforeEmit after filter paths renames e ≠ none →
      anyPathMatches paths (beforeKey renames e) = true := by
    intro e hne
    by_cases hp : anyPathMatches paths (resolveRename renames e.1) = true
    · exact hp
    · have hp' : anyPathMatches paths (resolveRename renames e.1) = false := by
        cases hval : anyPathMatches paths (resolveRename renames e.1)
        · rfl
        · exact absurd hval hp
      exact absurd (by simp [beforeEmit, hp']) hne
  have hae : ∀ e, afterEmit before paths renames e ≠ none →
      anyPathMatches paths e.1 = true := by
    intro e hne
    by_cases hp : anyPathMatches paths e.1 = true
    · exact hp
    · have hp' : anyPathMatches paths e.1 = false := by
        cases hval : anyPathMatches paths e.1
        · rfl
        · exact absurd hval hp
      exact absurd (by simp [afterEmit, hp']) hne
  intro x hx
  simp only [GetResultsDiff] at hx
  split at hx
  · refine foldl_applyEmit_key_prop (fun k => anyPathMatches paths k = true)
      Prod.fst (afterEmit before paths renames) after _ ?_
      (fun e _ h => hae e h) x hx
    split
    · exact foldl_applyEmit_key_prop (fun k => anyPathMatches paths k = true)
        (beforeKey renames) (beforeEmit after filter paths renames) before []
        (fun y hy => absurd hy (List.not_mem_nil y)) (fun e _ h => hbe e h)
    · exact fun y hy => absurd hy (List.not_mem_nil y)
  · split at hx
    · exact foldl_applyEmit_key_prop (fun k => anyPathMatches paths k = true)
        (beforeKey renames) (beforeEmit after filter paths renames) before []
        (fun y hy => absurd hy (List.not_mem_nil y)) (fun e _ h => hbe e h)
        x hx
    · exact absurd hx (List.not_mem_nil x)

/-- Witness for C7 at a concrete scoped run. -/
theorem spec_C7_witness :
    anyPathMatches (some ["/css/"]) "/css/a.html" = true :=
  spec_C7_scope [("/css/a.html", [1, 2])] [] ⟨false, true, false, false⟩
    (some ["/css/"]) [] ("/css/a.html", [0, 0, -2]) (by decide)

/-- C8: diffing a result set against itself with Changed only yields the
empty mapping; with Unchanged and Changed it maps every identifier of the
set to the zero entry [0, 0, 0]. -/
theorem spec_C8_self_diff (R : ResultsMap) (hnd : (R.map Prod.fst).Nodup) :
    GetResultsDiff R R ⟨false, false, true, false⟩ none [] = [] ∧
    ∀ test rb, (test, rb) ∈ R →
      mapGet? (GetResultsDiff R R ⟨false, false, true, true⟩ none []) test =
        some [0, 0, 0] := by
  have hkeys : beforeKey ([] : List (String × String)) = Prod.fst := by
    funext e
    rfl
  constructor
  · simp only [GetResultsDiff]
    refine foldl_applyEmit_all_none _ _ _ _ ?_
    intro e he
    obtain ⟨t, rb⟩ := e
    have hlookup : mapGet? R t = some rb := mapGet?_eq_some_of_mem_nodup hnd he
    simp [beforeEmit, resolveRename, mapGet?, anyPathMatches, hlookup]
  · intro test rb hmem
    have hlookup : mapGet? R test = some rb :=
      mapGet?_eq_some_of_mem_nodup hnd hmem
    have hemit : beforeEmit R ⟨false, false, true, true⟩ none [] (test, rb) =
        some [0, 0, 0] := by
      simp [beforeEmit, resolveRename, mapGet?, anyPathMatches, hlookup]
    have hres := mapGet?_GetResultsDiff_beforeWrite R R
      ⟨false, false, true, true⟩ none [] hmem (hkeys ▸ hnd) (Or.inr rfl) hemit
      (fun hadd => absurd hadd (by simp))
    exact hres

/-- Witness for C8 at a concrete result set. -/
theorem spec_C8_witness :
    GetResultsDiff [("a", [1, 2])] [("a", [1, 2])] ⟨false, false, true, false⟩
        none [] = [] ∧
    mapGet? (GetResultsDiff [("a", [1, 2])] [("a", [1, 2])]
        ⟨false, false, true, true⟩ none []) "a" = some [0, 0, 0] :=
  ⟨(spec_C8_self_diff [("a", [1, 2])] (by simp)).1,
    (spec_C8_self_diff [("a", [1, 2])] (by simp)).2 "a" [1, 2] (by simp)⟩

/-- C10: when `renames` maps `oldId` to `newId`, `oldId` is a key of
`before` and no rename targets `oldId`, a stale `after` entry keyed
`oldId` never contributes: the after pass leaves the accumulator unchanged
at it, and `oldId` is not a key of the result for any filter and scope. -/
theorem spec_C10_stale_old_entry (before after : ResultsMap)
    (renames : List (String × String)) (oldId newId : String) (v : List Int)
    (hmem : (oldId, v) ∈ before)
    (hren : mapGet? renames oldId = some newId)
    (htgt : ∀ r ∈ renames, r.2 ≠ oldId) :
    (∀ (paths : Option (List String)) (diff : ResultsMap) (ra : List Int),
      applyEmit Prod.fst (afterEmit before paths renames) diff (oldId, ra) =
        diff) ∧
    (∀ (filter : DiffFilterParam) (paths : Option (List String)),
      mapGet? (GetResultsDiff before after filter paths renames) oldId =
        none) := by
  constructor
  · intro paths diff ra
    obtain ⟨w, hw⟩ := mapGet?_isSome_of_mem hmem
    simp [applyEmit, afterEmit, hw]
  · intro filter paths
    refine mapGet?_GetResultsDiff_eq_none _ _ _ _ _ _ ?_ ?_
    · intro e he
      left
      intro hcontra
      cases hr : mapGet? renames e.1 with
      | some r =>
        have hk : beforeKey renames e = r := resolveRename_some hr
        rw [hk] at hcontra
        exact htgt (e.1, r) (mem_of_mapGet?_eq_some hr) hcontra
      | none =>
        have hk : beforeKey renames e = e.1 := resolveRename_none hr
        rw [hk] at hcontra
        rw [hcontra] at hr
        rw [hren] at hr
        cases hr
    · intro _ e he
      by_cases hc : e.1 = oldId
      · right
        obtain ⟨w, hw⟩ := mapGet?_isSome_of_mem hmem
        rw [← hc] at hw
        simp [afterEmit, hw]
      · exact Or.inl hc

/-- Witness for C10: `after` still holds a stale entry under the old id. -/
theorem spec_C10_witness :
    mapGet? (GetResultsDiff [("old.html", [5, 10])]
        [("old.html", [5, 10]), ("new.html", [5, 10])]
        ⟨true, true, true, true⟩ none [("old.html", "new.html")])
      "old.html" = none :=
  (spec_C10_stale_old_entry [("old.html", [5, 10])]
      [("old.html", [5, 10]), ("new.html", [5, 10])]
      [("old.html", "new.html")] "old.html" "new.html" [5, 10] (by simp) rfl
      (by decide)).2 ⟨true, true, true, true⟩ none

/-! ### Bounds-checked variant (Go slice panics made explicit) -/

/-- Checked slice read `l[i]`: `none` is a Go out-of-bounds panic. -/
def getIC (l : List Int) (i : Nat) : Option Int :=
  l.get? i

/-- The before-pass loop body with explicit bounds checks: outer `none` is a
crash, `some none` is `continue`, `some (some v)` writes `v`. -/
def beforeEmitChecked (after : ResultsMap) (filter : DiffFilterParam)
    (paths : Option (List String)) (renames : List (String × String))
    (e : String × List Int) : Option (Option (List Int)) :=
  let test := resolveRename renames e.1
  if !(anyPathMatches paths test) then some none
  else
    match mapGet? after test with
    | none =>
      if !filter.Deleted then some none
      else
        match getIC e.2 1 with
        | none => none
        | some bt => some (some [0, 0, -bt])
    | some resultsAfter =>
      if !filter.Changed && !filter.Unchanged then some none
      else
        match getIC e.2 0, getIC resultsAfter 0, getIC e.2 1,
            getIC resultsAfter 1 with
        | some bp, some ap, some bt, some aq =>
          let delta := bp - ap
          let changed : Bool := delta != 0 || bt != aq
          if (!changed && !filter.Unchanged) || (changed && !filter.Changed)
          then some none
          else
            let improved := if ap - bp > 0 then ap - bp else 0
            let failingBefore := bt - bp
            let failingAfter := aq - ap
            let regressed :=
              if failingAfter - failingBefore > 0 then
                failingAfter - failingBefore
              else 0
            some (some [improved, regressed, aq - bt])
        | _, _, _, _ => none

/-- The after-pass loop body with explicit bounds checks. -/
def afterEmitChecked (before : ResultsMap) (paths : Option (List String))
    (renames : List (String × String)) (e : String × List Int) :
    Option (Option (List Int)) :=
  if renames.any (fun r => decide (r.2 = e.1)) then some none
  else if !(anyPathMatches paths e.1) then some none
  else
    match mapGet? before e.1 with
    | some _ => some none
    | none =>
      match getIC e.2 0, getIC e.2 1 with
      | some ap, some aq => some (some [ap, aq - ap, aq])
      | _, _ => none

/-- One checked loop iteration. -/
def applyEmitChecked {α : Type} (key : α → String)
    (emitC : α → Option (Option (List Int))) (diff : ResultsMap) (e : α) :
    Option ResultsMap :=
  match emitC e with
  | none => none
  | some none => some diff
  | some (some v) => some (mapSet diff (key e) v)

/-- A loop that aborts on the first crash. -/
def foldlOpt {α : Type} (f : ResultsMap → α → Option ResultsMap) :
    ResultsMap → List α → Option ResultsMap
  | d, [] => some d
  | d, x :: xs =>
    match f d x with
    | none => none
    | some d' => foldlOpt f d' xs

/-- `GetResultsDiff` with every slice access bounds-checked; `none` models a
Go runtime panic. -/
def GetResultsDiffChecked (before after : ResultsMap)
    (filter : DiffFilterParam) (paths : Option (List String))
    (renames : List (String × String)) : Option ResultsMap :=
  match (if filter.Deleted || filter.Changed then
      foldlOpt
        (applyEmitChecked (beforeKey renames)
          (beforeEmitChecked after filter paths renames)) [] before
    else some []) with
  | none => none
  | some diff =>
    if filter.Added then
      foldlOpt
        (applyEmitChecked Prod.fst (afterEmitChecked before paths renames))
        diff after
    else some diff

theorem two_le_length (l : List Int) (h : 2 ≤ l.length) :
    ∃ a b t, l = a :: b :: t := by
  cases l with
  | nil => simp at h
  | cons a t =>
    cases t with
    | nil => simp at h
    | cons b t' => exact ⟨a, b, t', rfl⟩

theorem ite_some {β : Type} {c : Prop} [inst : Decidable c] (a b : β) :
    (if c then some a else some b) = some (if c then a else b) :=
  (apply_ite some c a b).symm

theorem beforeEmitChecked_eq (after : ResultsMap) (filter : DiffFilterParam)
    (paths : Option (List String)) (renames : List (String × String))
    (e : String × List Int) (he : 2 ≤ e.2.length)
    (hafter : ∀ x ∈ after, 2 ≤ x.2.length) :
    beforeEmitChecked after filter paths renames e =
      some (beforeEmit after filter paths renames e) := by
  obtain ⟨t, rb⟩ := e
  obtain ⟨bp, bt, tb, hb⟩ := two_le_length rb (by simpa using he)
  subst hb
  simp only [beforeEmitChecked, beforeEmit, getIC]
  cases hl : mapGet? after (resolveRename renames t) with
  | none => simp [hl, ite_some]
  | some ra =>
    obtain ⟨ap, aq, ta, ha2⟩ := two_le_length ra
      (by simpa using hafter _ (mem_of_mapGet?_eq_some hl))
    subst ha2
    simp [hl, ite_some]

theorem afterEmitChecked_eq (before : ResultsMap)
    (paths : Option (List String)) (renames : List (String × String))
    (e : String × List Int) (he : 2 ≤ e.2.length) :
    afterEmitChecked before paths renames e =
      some (afterEmit before paths renames e) := by
  obtain ⟨t, ra⟩ := e
  obtain ⟨ap, aq, ta, hra⟩ := two_le_length ra (by simpa using he)
  subst hra
  simp only [afterEmitChecked, afterEmit, getIC]
  cases hl : mapGet? before t with
  | none => simp [hl, ite_some]
  | some w => simp [hl, ite_some]

theorem foldlOpt_eq {α : Type} (key : α → String)
    (emitC : α → Option (Option (List Int))) (emit : α → Option (List Int))
    (l : List α) (init : ResultsMap)
    (h : ∀ e ∈ l, emitC e = some (emit e)) :
    foldlOpt (applyEmitChecked key emitC) init l =
      some (l.foldl (applyEmit key emit) init) := by
  induction l generalizing init with
  | nil => rfl
  | cons hd tl ih =>
    have hhd := h hd (List.mem_cons_self _ _)
    have hstep : applyEmitChecked key emitC init hd =
        some (applyEmit key emit init hd) := by
      cases hemit : emit hd with
      | none => simp [applyEmitChecked, applyEmit, hhd, hemit]
      | some v => simp [applyEmitChecked, applyEmit, hhd, hemit]
    simp only [foldlOpt, List.foldl_cons, hstep]
    exact ih _ (fun e hmem => h e (List.mem_cons_of_mem _ hmem))

/-- C9: on structurally valid input (every value array has at least two
elements) the bounds-checked engine never crashes and agrees with the total
engine, for every filter, scope and rename combination — including count
pairs with pass > total, where the arithmetic simply proceeds. -/
theorem spec_C9_no_failure (before after : ResultsMap)
    (filter : DiffFilterParam) (paths : Option (List String))
    (renames : List (String × String))
    (hb : ∀ e ∈ before, 2 ≤ e.2.length)
    (ha : ∀ e ∈ after, 2 ≤ e.2.length) :
    GetResultsDiffChecked before after filter paths renames =
      some (GetResultsDiff before after filter paths renames) := by
  have h1 : foldlOpt
      (applyEmitChecked (beforeKey renames)
        (beforeEmitChecked after filter paths renames)) [] before =
      some (List.foldl
        (applyEmit (beforeKey renames) (beforeEmit after filter paths renames))
        [] before) :=
    foldlOpt_eq _ _ _ _ _
      (fun e he => beforeEmitChecked_eq after filter paths renames e
        (hb e he) ha)
  have h2 : ∀ d, foldlOpt
      (applyEmitChecked Prod.fst (afterEmitChecked before paths renames))
      d after =
      some (List.foldl (applyEmit Prod.fst (afterEmit before paths renames))
        d after) :=
    fun d => foldlOpt_eq _ _ _ _ _
      (fun e he => afterEmitChecked_eq before paths renames e (ha e he))
  by_cases hg : (filter.Deleted || filter.Changed) = true <;>
    by_cases hadd : filter.Added = true <;>
      simp [GetResultsDiffChecked, GetResultsDiff, h1, h2, hg, hadd]

/-- Witness for C9 at a concrete valid input. -/
theorem spec_C9_witness :
    GetResultsDiffChecked [("a.html", [5, 10])] [("a.html", [7, 10])]
        ⟨true, true, true, true⟩ none [] =
      some (GetResultsDiff [("a.html", [5, 10])] [("a.html", [7, 10])]
        ⟨true, true, true, true⟩ none []) :=
  spec_C9_no_failure [("a.html", [5, 10])] [("a.html", [7, 10])]
    ⟨true, true, true, true⟩ none [] (by decide) (by decide)
